import Mathlib

/-!
Verification development for the townsquares-relay mesh coordinator
(package `manager`, file src/manager/manager.go), a shallow embedding of
the RelayManager state and its operations, plus the parts of the spec
whose implementation is absent from the source tree (the subscribe-filter
selection of the Subscription Worker and the Timestamp Persister, which
are referenced only by tests in the tree).

Go maps are embedded as association lists with map-update semantics
(`mset` overwrites the binding of an existing key and appends a new one
otherwise); `time.Now()` is threaded through as an explicit `now`
argument; the outcome of the external network call `nostr.RelayConnect`
is an explicit `Except` parameter.
-/

/-- Embedding of `nostr.Event`: only the fields the manager reads. The
identifier `id` is the deduplication key. -/
structure NostrEvent where
  id : String
  pubkey : String
  createdAt : Int
  kind : Nat
  content : String
deriving DecidableEq, Repr

/-- Embedding of `manager.EventMetadata` (SourceRelay, ReceivedAt, Local). -/
structure EventMetadata where
  sourceRelay : String
  receivedAt : Int
  isLocal : Bool
deriving DecidableEq, Repr

/-- Embedding of `manager.RelayConnection`: the URL key, an opaque handle
standing for the `*nostr.Relay` session, and the `active` flag. -/
structure RelayConnection where
  url : String
  relayHandle : Nat
  active : Bool
deriving DecidableEq, Repr

/-- Map update on an association list: overwrite the first binding of the
key if present, append otherwise (Go `m[k] = v`). -/
def mset {α : Type} : List (String × α) → String → α → List (String × α)
  | [], k, v => [(k, v)]
  | (k₀, v₀) :: rest, k, v =>
      if k₀ = k then (k, v) :: rest else (k₀, v₀) :: mset rest k v

/-- Map lookup on an association list (Go `m[k]`, with `none` for a
missing key). -/
def mget {α : Type} : List (String × α) → String → Option α
  | [], _ => none
  | (k₀, v₀) :: rest, k => if k₀ = k then some v₀ else mget rest k

/-- Number of bindings a key has in an association list; on well-formed
map states this is 0 or 1. -/
def countKey {α : Type} : List (String × α) → String → Nat
  | [], _ => 0
  | (k₀, _) :: rest, k => (if k₀ = k then 1 else 0) + countKey rest k

/-- Lookup in a Go `map[string]bool`: a missing key reads as `false`. -/
def seenGet (m : List (String × Bool)) (k : String) : Bool :=
  (mget m k).getD false

theorem mget_mset_self {α : Type} (m : List (String × α)) (k : String) (v : α) :
    mget (mset m k v) k = some v := by
  induction m with
  | nil => simp [mset, mget]
  | cons hd tl ih =>
    obtain ⟨k₀, v₀⟩ := hd
    by_cases h : k₀ = k
    · simp [mset, h, mget]
    · simp [mset, h, mget, ih]

theorem mget_mset_ne {α : Type} (m : List (String × α)) (k k₁ : String) (v : α)
    (h : k₁ ≠ k) : mget (mset m k v) k₁ = mget m k₁ := by
  have hne : ¬ (k = k₁) := fun hh => h hh.symm
  induction m with
  | nil => simp [mset, mget, hne]
  | cons hd tl ih =>
    obtain ⟨k₀, v₀⟩ := hd
    by_cases hk : k₀ = k
    · subst hk
      simp [mset, mget, hne]
    · by_cases hk₁ : k₀ = k₁
      · simp [mset, hk, mget, hk₁, h]
      · simp [mset, hk, mget, hk₁, ih]

theorem countKey_eq_zero {α : Type} (m : List (String × α)) (k : String)
    (h : k ∉ m.map Prod.fst) : countKey m k = 0 := by
  induction m with
  | nil => rfl
  | cons hd tl ih =>
    obtain ⟨k₀, v₀⟩ := hd
    rw [List.map_cons, List.mem_cons] at h
    push_neg at h
    have hne : ¬ (k₀ = k) := fun hh => h.1 hh.symm
    simp [countKey, hne]
    exact ih h.2

theorem countKey_mset_of_nodup {α : Type} (m : List (String × α)) (k : String) (v : α)
    (h : (m.map Prod.fst).Nodup) : countKey (mset m k v) k = 1 := by
  induction m with
  | nil => simp [mset, countKey]
  | cons hd tl ih =>
    obtain ⟨k₀, v₀⟩ := hd
    rw [List.map_cons, List.nodup_cons] at h
    by_cases hk : k₀ = k
    · subst hk
      have hz : countKey tl k₀ = 0 := countKey_eq_zero tl k₀ h.1
      simp [mset, countKey, hz]
    · simp [mset, hk, countKey]
      exact ih h.2

theorem mget_eq_none_iff {α : Type} (m : List (String × α)) (k : String) :
    mget m k = none ↔ k ∉ m.map Prod.fst := by
  induction m with
  | nil => simp [mget]
  | cons hd tl ih =>
    obtain ⟨k₀, v₀⟩ := hd
    by_cases hk : k₀ = k
    · subst hk
      simp [mget]
    · have hne : ¬ (k = k₀) := fun hh => hk hh.symm
      simp [mget, hk, hne, ih]

theorem keys_mset {α : Type} (m : List (String × α)) (k : String) (v : α) :
    (mset m k v).map Prod.fst =
      if (mget m k).isSome then m.map Prod.fst else m.map Prod.fst ++ [k] := by
  induction m with
  | nil => simp [mset, mget]
  | cons hd tl ih =>
    obtain ⟨k₀, v₀⟩ := hd
    by_cases hk : k₀ = k
    · subst hk
      simp [mset, mget]
    · simp only [mset, hk, if_false, List.map_cons, mget, ih]
      by_cases hs : (mget tl k).isSome
      · simp [hs, hk]
      · simp [hs, hk]

theorem nodup_keys_mset {α : Type} (m : List (String × α)) (k : String) (v : α)
    (h : (m.map Prod.fst).Nodup) : ((mset m k v).map Prod.fst).Nodup := by
  rw [keys_mset]
  by_cases hs : (mget m k).isSome
  · simpa [hs] using h
  · have hk : k ∉ m.map Prod.fst := by
      rw [← mget_eq_none_iff]
      exact Option.not_isSome_iff_eq_none.mp hs
    simp [hs, List.nodup_append, h, hk]

theorem mget_eq_of_mem_of_nodup {α : Type} (m : List (String × α)) (k : String) (v : α)
    (hnd : (m.map Prod.fst).Nodup) (hmem : (k, v) ∈ m) : mget m k = some v := by
  induction m with
  | nil => simp at hmem
  | cons hd tl ih =>
    obtain ⟨k₀, v₀⟩ := hd
    rw [List.map_cons, List.nodup_cons] at hnd
    rcases List.mem_cons.mp hmem with h | h
    · have h1 : k = k₀ ∧ v = v₀ := by
        constructor
        · exact congrArg Prod.fst h
        · exact congrArg Prod.snd h
      simp [mget, h1.1.symm, h1.2.symm]
    · have hne : ¬ (k₀ = k) := by
        intro he
        subst he
        exact hnd.1 (List.mem_map.mpr ⟨(k₀, v), h, rfl⟩)
      simp [mget, hne]
      exact ih hnd.2 h

/-- State of `manager.RelayManager`: the connection registry, the event
store, the metadata table and the deduplication set (`seenEvents`).
The mutexes of the Go code guard these maps; the sequential embedding
models each operation as one atomic state transformer. -/
structure RMState where
  connections : List (String × RelayConnection)
  eventStore : List (String × NostrEvent)
  eventMetadata : List (String × EventMetadata)
  seenEvents : List (String × Bool)
deriving DecidableEq, Repr

/-- Embedding of `NewRelayManager`: every map starts empty. -/
def newRelayManager : RMState :=
  { connections := [], eventStore := [], eventMetadata := [], seenEvents := [] }

/-- Embedding of `RelayManager.handleIncomingEvent`: if the identifier is
in the deduplication set, return with no effect; otherwise mark it seen,
store the event and record metadata with the source URL, the current
time and `Local=false`. -/
def handleIncomingEvent (rm : RMState) (event : NostrEvent) (sourceURL : String)
    (now : Int) : RMState :=
  if seenGet rm.seenEvents event.id then rm
  else
    { rm with
      seenEvents := mset rm.seenEvents event.id true
      eventStore := mset rm.eventStore event.id event
      eventMetadata := mset rm.eventMetadata event.id ⟨sourceURL, now, false⟩ }

/-- Error text built by `Connect` on failure, from
`fmt.Errorf("failed to connect to relay %s: %w", url, err)`. -/
def connectErrMsg (url cause : String) : String :=
  "failed to connect to relay " ++ url ++ ": " ++ cause

/-- Embedding of `RelayManager.Connect`. The outcome of the external call
`nostr.RelayConnect(ctx, url)` is passed in as an `Except` value (an
invalid address, an unreachable host, or an already-cancelled context all
surface as an `Except.error` from that call). Returns the new state and
`none` for a nil error, `some msg` for a returned error. The spawned
`Subscribe` goroutine has no immediate effect on the manager maps. -/
def connectRelay (rm : RMState) (url : String) (outcome : Except String Nat) :
    RMState × Option String :=
  match mget rm.connections url with
  | some _ => (rm, none)
  | none =>
    match outcome with
    | Except.error cause => (rm, some (connectErrMsg url cause))
    | Except.ok handle =>
        ({ rm with connections := mset rm.connections url ⟨url, handle, true⟩ }, none)

/-- Embedding of `RelayManager.Broadcast` restricted to its effect on the
manager state: mark the identifier seen and record metadata with source
relay "local", the current time and `Local=true`. The concurrent
publishes to active peers touch no manager state. Broadcast never writes
`eventStore`. -/
def broadcastEvent (rm : RMState) (event : NostrEvent) (now : Int) : RMState :=
  { rm with
    seenEvents := mset rm.seenEvents event.id true
    eventMetadata := mset rm.eventMetadata event.id ⟨"local", now, true⟩ }

/-- Embedding of `RelayManager.GetAllEvents`: a snapshot of the values of
the event store. -/
def getAllEvents (rm : RMState) : List NostrEvent :=
  rm.eventStore.map Prod.snd

/-- Effect of the `Subscribe` worker flipping `conn.active` (the worker
sets it to true on subscribe success and false on failure or stream
end). -/
def setActive (rm : RMState) (url : String) (b : Bool) : RMState :=
  match mget rm.connections url with
  | none => rm
  | some c => { rm with connections := mset rm.connections url { c with active := b } }

/-- Embedding of `RelayManager.Close`: every peer session is closed, but
no manager map is mutated by the Go code. -/
def closeAll (rm : RMState) : RMState := rm

/-- One observable operation of the manager, as a transition between
states. -/
inductive Step : RMState → RMState → Prop
  | ingest (rm : RMState) (e : NostrEvent) (src : String) (now : Int) :
      Step rm (handleIncomingEvent rm e src now)
  | broadcast (rm : RMState) (e : NostrEvent) (now : Int) :
      Step rm (broadcastEvent rm e now)
  | connect (rm : RMState) (url : String) (outcome : Except String Nat) :
      Step rm (connectRelay rm url outcome).1
  | mark (rm : RMState) (url : String) (b : Bool) :
      Step rm (setActive rm url b)
  | close (rm : RMState) : Step rm (closeAll rm)

/-- Reflexive-transitive closure of `Step`. -/
inductive Steps : RMState → RMState → Prop
  | refl (rm : RMState) : Steps rm rm
  | tail {a b c : RMState} : Steps a b → Step b c → Steps a c

/-- Reachability from the freshly constructed manager. -/
def Reachable (rm : RMState) : Prop := Steps newRelayManager rm

/-- Superset property: every key of the event store is marked in the
deduplication set. -/
def StoreSeenInv (rm : RMState) : Prop :=
  ∀ id : String, (mget rm.eventStore id).isSome → seenGet rm.seenEvents id = true

/-- Stored events sit under their own identifier as key. -/
def StoreKeyInv (rm : RMState) : Prop :=
  ∀ id e, mget rm.eventStore id = some e → e.id = id

/-- Well-formedness of a manager state: the superset property, the
key-identifier agreement, and duplicate-free keys in the store and
registry (Go map semantics). -/
def WellFormed (rm : RMState) : Prop :=
  StoreSeenInv rm ∧ StoreKeyInv rm ∧
    (rm.eventStore.map Prod.fst).Nodup ∧ (rm.connections.map Prod.fst).Nodup

theorem seenGet_mset_self (m : List (String × Bool)) (k : String) (b : Bool) :
    seenGet (mset m k b) k = b := by
  simp [seenGet, mget_mset_self]

theorem seenGet_mset_ne (m : List (String × Bool)) (k k₁ : String) (b : Bool)
    (h : k₁ ≠ k) : seenGet (mset m k b) k₁ = seenGet m k₁ := by
  simp [seenGet, mget_mset_ne m k k₁ b h]

theorem step_wellFormed {a b : RMState} (hs : Step a b) (ha : WellFormed a) :
    WellFormed b := by
  obtain ⟨hseen, hkey, hnds, hndc⟩ := ha
  cases hs with
  | ingest e src now =>
    by_cases hdup : seenGet a.seenEvents e.id
    · simpa [handleIncomingEvent, hdup] using ⟨hseen, hkey, hnds, hndc⟩
    · refine ⟨?_, ?_, ?_, ?_⟩
      · intro id hid
        by_cases hide : id = e.id
        · subst hide
          simp [handleIncomingEvent, hdup, seenGet_mset_self]
        · simp only [handleIncomingEvent, hdup, if_false, Bool.false_eq_true] at hid ⊢
          rw [mget_mset_ne a.eventStore e.id id e hide] at hid
          rw [seenGet_mset_ne a.seenEvents e.id id true hide]
          exact hseen id hid
      · intro id ev hid
        by_cases hide : id = e.id
        · subst hide
          simp only [handleIncomingEvent, hdup, if_false, Bool.false_eq_true,
            mget_mset_self] at hid
          cases hid
          rfl
        · simp only [handleIncomingEvent, hdup, if_false, Bool.false_eq_true] at hid
          rw [mget_mset_ne a.eventStore e.id id e hide] at hid
          exact hkey id ev hid
      · simp only [handleIncomingEvent, hdup, if_false, Bool.false_eq_true]
        exact nodup_keys_mset a.eventStore e.id e hnds
      · simpa [handleIncomingEvent, hdup] using hndc
  | broadcast e now =>
    refine ⟨?_, hkey, hnds, hndc⟩
    intro id hid
    simp only [broadcastEvent] at hid ⊢
    by_cases hide : id = e.id
    · subst hide
      simp [seenGet_mset_self]
    · rw [seenGet_mset_ne a.seenEvents e.id id true hide]
      exact hseen id hid
  | connect url outcome =>
    cases hc : mget a.connections url with
    | some c =>
      simpa [connectRelay, hc] using ⟨hseen, hkey, hnds, hndc⟩
    | none =>
      cases outcome with
      | error cause =>
        simpa [connectRelay, hc] using ⟨hseen, hkey, hnds, hndc⟩
      | ok handle =>
        have hg : (connectRelay a url (Except.ok handle)).1 =
            { a with connections := mset a.connections url ⟨url, handle, true⟩ } := by
          simp [connectRelay, hc]
        rw [hg]
        exact ⟨hseen, hkey, hnds,
          nodup_keys_mset a.connections url ⟨url, handle, true⟩ hndc⟩
  | mark url b =>
    cases hc : mget a.connections url with
    | none => simpa [setActive, hc] using ⟨hseen, hkey, hnds, hndc⟩
    | some c =>
      have hg : setActive a url b =
          { a with connections := mset a.connections url { c with active := b } } := by
        simp [setActive, hc]
      rw [hg]
      exact ⟨hseen, hkey, hnds,
        nodup_keys_mset a.connections url { c with active := b } hndc⟩
  | close => exact ⟨hseen, hkey, hnds, hndc⟩

theorem steps_wellFormed {a b : RMState} (hs : Steps a b) (ha : WellFormed a) :
    WellFormed b := by
  induction hs with
  | refl => exact ha
  | tail hab hbc ih => exact step_wellFormed hbc ih

theorem wellFormed_init : WellFormed newRelayManager := by
  refine ⟨?_, ?_, ?_, ?_⟩ <;> simp [newRelayManager, StoreSeenInv, StoreKeyInv, mget]

theorem reachable_wellFormed {rm : RMState} (h : Reachable rm) : WellFormed rm :=
  steps_wellFormed h wellFormed_init

theorem step_seen_mono {a b : RMState} (hs : Step a b) (id : String)
    (h : seenGet a.seenEvents id = true) : seenGet b.seenEvents id = true := by
  cases hs with
  | ingest e src now =>
    by_cases hdup : seenGet a.seenEvents e.id
    · simpa [handleIncomingEvent, hdup] using h
    · by_cases hide : id = e.id
      · subst hide
        simp [handleIncomingEvent, hdup, seenGet_mset_self]
      · simp only [handleIncomingEvent, hdup, if_false, Bool.false_eq_true]
        rw [seenGet_mset_ne a.seenEvents e.id id true hide]
        exact h
  | broadcast e now =>
    by_cases hide : id = e.id
    · subst hide
      simp [broadcastEvent, seenGet_mset_self]
    · simp only [broadcastEvent]
      rw [seenGet_mset_ne a.seenEvents e.id id true hide]
      exact h
  | connect url outcome =>
    cases hc : mget a.connections url with
    | some c => simpa [connectRelay, hc] using h
    | none =>
      cases outcome with
      | error cause => simpa [connectRelay, hc] using h
      | ok handle => simpa [connectRelay, hc] using h
  | mark url b =>
    cases hc : mget a.connections url with
    | none => simpa [setActive, hc] using h
    | some c => simpa [setActive, hc] using h
  | close => exact h

theorem steps_seen_mono {a b : RMState} (hs : Steps a b) (id : String)
    (h : seenGet a.seenEvents id = true) : seenGet b.seenEvents id = true := by
  induction hs with
  | refl => exact h
  | tail hab hbc ih => exact step_seen_mono hbc id ih

/-- Backoff floor of the `Subscribe` worker, in seconds
(`backoff := 5 * time.Second`). -/
def backoffFloor : Nat := 5

/-- Backoff ceiling of the `Subscribe` worker, in seconds
(`maxBackoff := 60 * time.Second`). -/
def backoffCeiling : Nat := 60

/-- Outcome of one iteration of the `Subscribe` worker loop, as far as the
backoff variable is concerned. -/
inductive WorkerEvent where
  | subFailReconnectFail
  | subFailReconnectOk
  | subOkStreamEnd
deriving DecidableEq, Repr

/-- One iteration of the `Subscribe` loop from src/manager/manager.go,
projected onto the backoff variable. The result is the pair
(seconds slept this iteration, backoff at the top of the next iteration):
on subscribe failure the worker sleeps the current backoff, doubles it
capped at the ceiling, then attempts a reconnect, resetting to the floor
only if the reconnect succeeds; on subscribe success the backoff is reset
to the floor before the stream is consumed, so the sleep after stream end
is the floor and the next iteration starts at the floor. -/
def workerStep (backoff : Nat) : WorkerEvent → Nat × Nat
  | WorkerEvent.subFailReconnectFail => (backoff, min (backoff * 2) backoffCeiling)
  | WorkerEvent.subFailReconnectOk => (backoff, backoffFloor)
  | WorkerEvent.subOkStreamEnd => (backoffFloor, backoffFloor)

/-- Backoff value after a sequence of worker-loop iterations, starting
from the initial `backoff := 5 * time.Second`. -/
def runWorker (evs : List WorkerEvent) : Nat :=
  evs.foldl (fun b e => (workerStep b e).2) backoffFloor

theorem workerFold_bounds (evs : List WorkerEvent) (b : Nat)
    (hlo : backoffFloor ≤ b) (hhi : b ≤ backoffCeiling) :
    backoffFloor ≤ evs.foldl (fun x e => (workerStep x e).2) b ∧
      evs.foldl (fun x e => (workerStep x e).2) b ≤ backoffCeiling := by
  induction evs generalizing b with
  | nil => exact ⟨hlo, hhi⟩
  | cons ev rest ih =>
    cases ev with
    | subFailReconnectFail =>
      refine ih (min (b * 2) backoffCeiling) ?_ ?_
      · simp only [backoffFloor, backoffCeiling] at *
        omega
      · simp only [backoffFloor, backoffCeiling] at *
        omega
    | subFailReconnectOk =>
      exact ih backoffFloor (le_refl _) (by simp [backoffFloor, backoffCeiling])
    | subOkStreamEnd =>
      exact ih backoffFloor (le_refl _) (by simp [backoffFloor, backoffCeiling])

/-- Modelled from the spec: kinds requested by every subscribe filter
(`nostr.KindTextNote`). -/
def textNoteKind : Nat := 1

/-- Modelled from the spec: the fixed count cap of the recent-history
window requested by a first-time connection (spec section 4.2). -/
def recentWindowLimit : Nat := 100

/-- Modelled from the spec: the higher bound used by the connection that
holds historical-sync responsibility (spec section 4.2). -/
def backfillLimit : Nat := 500

/-- Modelled from the spec: the per-connection state consulted by filter
construction. The manager version carrying `isFirstConnection` and
`lastSeenTimestamp` is absent from the source tree; only its tests
reference those fields. -/
structure PeerConnState where
  address : String
  isFirstConnection : Bool
  lastSeenTimestamp : Int
deriving DecidableEq, Repr

/-- Modelled from the spec: a subscription filter
{kinds, optional since-timestamp, result-count limit} (spec section 6). -/
structure SubscribeFilter where
  kinds : List Nat
  since : Option Int
  limit : Nat
deriving DecidableEq, Repr

/-- Modelled from the spec: `TryClaim` of the Historical-Sync Coordinator
(spec section 4.3): under one lock, an empty owner is claimed by a
non-first-time connection; any other call returns false with no side
effect. The empty string is the empty owner. -/
def tryClaim (owner : String) (address : String) (isFirst : Bool) : Bool × String :=
  if owner = "" ∧ isFirst = false then (true, address) else (false, owner)

/-- Modelled from the spec: `Release` of the Historical-Sync Coordinator
(spec section 4.3): clears the owner only if it currently equals the
releasing address. -/
def releaseClaim (owner : String) (address : String) : String :=
  if owner = address then "" else owner

/-- Modelled from the spec: the filter construction evaluated fresh on
each subscribe attempt of the Subscription Worker (spec section 4.2),
returning the filter and the sync owner after the attempt. The manager
version implementing this selection is absent from the source tree (the
Subscribe in src/manager/manager.go predates it and requests a constant
filter); only the tests reference `historicalSyncRelay`. -/
def buildSubscribeFilter (conn : PeerConnState) (owner : String) (now : Int) :
    SubscribeFilter × String :=
  if conn.isFirstConnection then
    ({ kinds := [textNoteKind], since := none, limit := recentWindowLimit }, owner)
  else
    match tryClaim owner conn.address conn.isFirstConnection with
    | (true, newOwner) =>
        ({ kinds := [textNoteKind], since := some conn.lastSeenTimestamp,
           limit := backfillLimit }, newOwner)
    | (false, _) =>
        ({ kinds := [textNoteKind], since := some now, limit := 0 }, owner)

/-- Modelled from the spec: the persisted snapshot layout of the Timestamp
Persister (spec section 6), a JSON value
{ "timestamps": { address: RFC3339 time }, "last_saved": RFC3339 time }.
RFC3339 times at the snapshot resolution are embedded as whole seconds. -/
inductive JsonVal where
  | str (s : String)
  | num (n : Int)
  | obj (fields : List (String × JsonVal))

/-- Modelled from the spec: `Save()` serializes every connection's
address to last-seen timestamp mapping together with a saved-at time,
fully overwriting the file contents (spec section 4.6). -/
def saveTimestamps (table : List (String × Int)) (savedAt : Int) : JsonVal :=
  JsonVal.obj
    [("timestamps", JsonVal.obj (table.map fun p => (p.1, JsonVal.num p.2))),
     ("last_saved", JsonVal.num savedAt)]

/-- Modelled from the spec: parse one RFC3339 time value. -/
def decodeTime : JsonVal → Option Int
  | JsonVal.num n => some n
  | _ => none

/-- Modelled from the spec: parse the per-address timestamp table. -/
def decodeEntries : List (String × JsonVal) → Option (List (String × Int))
  | [] => some []
  | (k, v) :: rest =>
    match decodeTime v, decodeEntries rest with
    | some t, some r => some ((k, t) :: r)
    | _, _ => none

/-- Modelled from the spec: `loadTimestamps()` on manager construction
reads the snapshot into the saved-timestamps side table; absence or parse
failure yields the empty table (spec section 4.6). -/
def loadTimestamps : Option JsonVal → List (String × Int)
  | none => []
  | some (JsonVal.obj fields) =>
      match mget fields "timestamps" with
      | some tbl =>
          match tbl with
          | JsonVal.obj entries => (decodeEntries entries).getD []
          | _ => []
      | none => []
  | some _ => []

/-- Concrete event used to instantiate the theorems below. -/
def cEvent : NostrEvent :=
  { id := "ev-1", pubkey := "pk-1", createdAt := 100, kind := 1, content := "hello" }

/-- Concrete reconnecting peer used to instantiate the filter theorem. -/
def cPeer : PeerConnState :=
  { address := "wss://a", isFirstConnection := false, lastSeenTimestamp := 50 }

/-- C1: ingest is idempotent per event identifier. From a reachable state
in which the identifier of `e` is not yet in the deduplication set, a
first ingest stores exactly one EventRecord under that identifier, and a
second ingest of `e` (from the same or a different source address)
returns immediately, leaving the deduplication set, the event store and
the metadata table unchanged. -/
theorem ingest_idempotent (rm : RMState) (e : NostrEvent) (src₁ src₂ : String)
    (t₁ t₂ : Int) (hr : Reachable rm)
    (hunseen : seenGet rm.seenEvents e.id = false) :
    countKey (handleIncomingEvent rm e src₁ t₁).eventStore e.id = 1 ∧
      handleIncomingEvent (handleIncomingEvent rm e src₁ t₁) e src₂ t₂ =
        handleIncomingEvent rm e src₁ t₁ := by
  obtain ⟨-, -, hnds, -⟩ := reachable_wellFormed hr
  have h1 : handleIncomingEvent rm e src₁ t₁ =
      { rm with
        seenEvents := mset rm.seenEvents e.id true
        eventStore := mset rm.eventStore e.id e
        eventMetadata := mset rm.eventMetadata e.id ⟨src₁, t₁, false⟩ } := by
    simp [handleIncomingEvent, hunseen]
  constructor
  · rw [h1]
    exact countKey_mset_of_nodup rm.eventStore e.id e hnds
  · rw [h1]
    simp [handleIncomingEvent, seenGet_mset_self]

theorem ingest_idempotent_witness :
    countKey (handleIncomingEvent newRelayManager cEvent "wss://a" 1).eventStore
        cEvent.id = 1 ∧
      handleIncomingEvent (handleIncomingEvent newRelayManager cEvent "wss://a" 1)
          cEvent "wss://b" 2 =
        handleIncomingEvent newRelayManager cEvent "wss://a" 1 :=
  ingest_idempotent newRelayManager cEvent "wss://a" "wss://b" 1 2
    (Steps.refl _) (by rfl)

/-- C2: connect is idempotent per address. From a reachable state with no
connection for the address, a first successful Connect stores one
connection; a second Connect for the same address (whatever the network
outcome would be) returns without error and leaves the registry with
exactly that one stored connection, unchanged. -/
theorem connect_idempotent (rm : RMState) (url : String) (handle : Nat)
    (outcome₂ : Except String Nat) (hr : Reachable rm)
    (habsent : mget rm.connections url = none) :
    connectRelay (connectRelay rm url (Except.ok handle)).1 url outcome₂ =
        ((connectRelay rm url (Except.ok handle)).1, none) ∧
      mget (connectRelay rm url (Except.ok handle)).1.connections url =
        some ⟨url, handle, true⟩ ∧
      countKey (connectRelay rm url (Except.ok handle)).1.connections url = 1 := by
  obtain ⟨-, -, -, hndc⟩ := reachable_wellFormed hr
  have h1 : (connectRelay rm url (Except.ok handle)).1 =
      { rm with connections := mset rm.connections url ⟨url, handle, true⟩ } := by
    simp [connectRelay, habsent]
  refine ⟨?_, ?_, ?_⟩
  · rw [h1]
    simp [connectRelay, mget_mset_self]
  · rw [h1]
    simpa using mget_mset_self rm.connections url ⟨url, handle, true⟩
  · rw [h1]
    simpa using countKey_mset_of_nodup rm.connections url ⟨url, handle, true⟩ hndc

theorem connect_idempotent_witness :
    connectRelay (connectRelay newRelayManager "wss://a" (Except.ok 7)).1 "wss://a"
        (Except.ok 9) =
        ((connectRelay newRelayManager "wss://a" (Except.ok 7)).1, none) ∧
      mget (connectRelay newRelayManager "wss://a" (Except.ok 7)).1.connections
          "wss://a" = some ⟨"wss://a", 7, true⟩ ∧
      countKey (connectRelay newRelayManager "wss://a" (Except.ok 7)).1.connections
          "wss://a" = 1 :=
  connect_idempotent newRelayManager "wss://a" 7 (Except.ok 9) (Steps.refl _) (by rfl)

/-- C3: the subscribe filter depends on the connection state, evaluated
fresh at each attempt: a first-time connection requests a recent-history
window capped at a fixed count with no since-timestamp; a non-first-time
connection that is granted historical-sync responsibility (the owner slot
is empty) requests everything since its last-seen timestamp with a higher
bound and is recorded as the back-fill source; any other connection
requests only new events going forward with zero historical bound. -/
theorem subscribe_filter_by_state (conn : PeerConnState) (owner : String) (now : Int) :
    (conn.isFirstConnection = true →
      buildSubscribeFilter conn owner now =
        ({ kinds := [textNoteKind], since := none, limit := recentWindowLimit },
          owner)) ∧
    (conn.isFirstConnection = false → owner = "" →
      buildSubscribeFilter conn owner now =
        ({ kinds := [textNoteKind], since := some conn.lastSeenTimestamp,
           limit := backfillLimit }, conn.address) ∧
        recentWindowLimit < backfillLimit) ∧
    (conn.isFirstConnection = false → owner ≠ "" →
      buildSubscribeFilter conn owner now =
        ({ kinds := [textNoteKind], since := some now, limit := 0 }, owner)) := by
  refine ⟨fun h1 => ?_, fun h1 h2 => ⟨?_, by decide⟩, fun h1 h2 => ?_⟩
  · simp [buildSubscribeFilter, h1]
  · subst h2
    simp [buildSubscribeFilter, h1, tryClaim]
  · simp [buildSubscribeFilter, h1, tryClaim, h2]

theorem subscribe_filter_by_state_witness :
    buildSubscribeFilter cPeer "" 90 =
      ({ kinds := [textNoteKind], since := some cPeer.lastSeenTimestamp,
         limit := backfillLimit }, cPeer.address) ∧
      recentWindowLimit < backfillLimit :=
  (subscribe_filter_by_state cPeer "" 90).2.1 (by rfl) (by rfl)

/-- C4: Broadcast prevents echo. Broadcasting `e` marks its identifier in
the deduplication set; in every state reachable from the broadcast, the
identifier is still marked, and ingesting any event carrying the same
identifier (from any source address) is the identity on the manager
state. -/
theorem broadcast_prevents_echo (rm rm₂ : RMState) (e e₂ : NostrEvent)
    (now t₂ : Int) (src₂ : String)
    (hid : e₂.id = e.id)
    (hseq : Steps (broadcastEvent rm e now) rm₂) :
    seenGet (broadcastEvent rm e now).seenEvents e.id = true ∧
      seenGet rm₂.seenEvents e.id = true ∧
      handleIncomingEvent rm₂ e₂ src₂ t₂ = rm₂ := by
  have h1 : seenGet (broadcastEvent rm e now).seenEvents e.id = true := by
    simp [broadcastEvent, seenGet_mset_self]
  have h2 := steps_seen_mono hseq e.id h1
  exact ⟨h1, h2, by simp [handleIncomingEvent, hid, h2]⟩

theorem broadcast_prevents_echo_witness :
    seenGet (broadcastEvent newRelayManager cEvent 5).seenEvents cEvent.id = true ∧
      seenGet (broadcastEvent newRelayManager cEvent 5).seenEvents cEvent.id = true ∧
      handleIncomingEvent (broadcastEvent newRelayManager cEvent 5) cEvent
          "wss://b" 6 =
        broadcastEvent newRelayManager cEvent 5 :=
  broadcast_prevents_echo newRelayManager (broadcastEvent newRelayManager cEvent 5)
    cEvent cEvent 5 6 "wss://b" rfl (Steps.refl _)

/-- C5: connect failure is atomic. When the address has no existing
connection and session establishment fails (an invalid address, an
unreachable host, or an already-cancelled context all surface as an error
from the external connect call), Connect returns the unchanged state
together with an error whose text embeds the address and the underlying
cause, and stores nothing. -/
theorem connect_failure_atomic (rm : RMState) (url cause : String)
    (habsent : mget rm.connections url = none) :
    connectRelay rm url (Except.error cause) =
        (rm, some (connectErrMsg url cause)) ∧
      ∃ pre mid : String, connectErrMsg url cause = pre ++ url ++ mid ++ cause := by
  exact ⟨by simp [connectRelay, habsent],
    ⟨"failed to connect to relay ", ": ", rfl⟩⟩

theorem connect_failure_atomic_witness :
    connectRelay newRelayManager "invalid-url" (Except.error "dial failed") =
        (newRelayManager, some (connectErrMsg "invalid-url" "dial failed")) ∧
      ∃ pre mid : String,
        connectErrMsg "invalid-url" "dial failed" =
          pre ++ "invalid-url" ++ mid ++ "dial failed" :=
  connect_failure_atomic newRelayManager "invalid-url" "dial failed" (by rfl)

/-- C6: the backoff state machine of the Subscribe worker. The backoff
starts at the floor; a subscribe failure sleeps the current backoff and
then doubles it capped at the ceiling, and a failed reconnect leaves that
doubled value in place (strictly above the floor, hence no reset); a
successful reconnect and a successful subscribe both reset it to the
floor; along every trace of worker iterations the backoff stays between
the floor and the ceiling inclusive. -/
theorem backoff_state_machine (b : Nat) (evs : List WorkerEvent)
    (hb : backoffFloor ≤ b ∧ b ≤ backoffCeiling) :
    runWorker [] = backoffFloor ∧
      workerStep b WorkerEvent.subFailReconnectFail =
        (b, min (b * 2) backoffCeiling) ∧
      backoffFloor < (workerStep b WorkerEvent.subFailReconnectFail).2 ∧
      (workerStep b WorkerEvent.subFailReconnectOk).2 = backoffFloor ∧
      (workerStep b WorkerEvent.subOkStreamEnd).2 = backoffFloor ∧
      backoffFloor ≤ runWorker evs ∧ runWorker evs ≤ backoffCeiling := by
  obtain ⟨hlo, hhi⟩ := hb
  have hbounds := workerFold_bounds evs backoffFloor (le_refl _)
    (by simp [backoffFloor, backoffCeiling])
  refine ⟨rfl, rfl, ?_, rfl, rfl, hbounds.1, hbounds.2⟩
  simp only [workerStep, backoffFloor, backoffCeiling] at *
  omega

theorem backoff_state_machine_witness :
    runWorker [] = backoffFloor ∧
      workerStep 5 WorkerEvent.subFailReconnectFail =
        (5, min (5 * 2) backoffCeiling) ∧
      backoffFloor < (workerStep 5 WorkerEvent.subFailReconnectFail).2 ∧
      (workerStep 5 WorkerEvent.subFailReconnectOk).2 = backoffFloor ∧
      (workerStep 5 WorkerEvent.subOkStreamEnd).2 = backoffFloor ∧
      backoffFloor ≤ runWorker
          [WorkerEvent.subFailReconnectFail, WorkerEvent.subFailReconnectFail,
            WorkerEvent.subOkStreamEnd] ∧
        runWorker
          [WorkerEvent.subFailReconnectFail, WorkerEvent.subFailReconnectFail,
            WorkerEvent.subOkStreamEnd] ≤ backoffCeiling :=
  backoff_state_machine 5
    [WorkerEvent.subFailReconnectFail, WorkerEvent.subFailReconnectFail,
      WorkerEvent.subOkStreamEnd] (by decide)

/-- C7: superset invariant. In every reachable manager state, every
identifier that keys the event store is a member of the deduplication
set, and every single operation step taken from a reachable state leads
to a state that again satisfies the property (an identifier enters the
deduplication set atomically with its event reaching the store, inside
the same ingest). -/
theorem store_subset_seen (rm : RMState) (hr : Reachable rm) :
    StoreSeenInv rm ∧ ∀ s, Step rm s → StoreSeenInv s := by
  have hwf := reachable_wellFormed hr
  exact ⟨hwf.1, fun s hs => (step_wellFormed hs hwf).1⟩

theorem store_subset_seen_witness :
    seenGet (handleIncomingEvent newRelayManager cEvent "wss://a" 1).seenEvents
      "ev-1" = true :=
  (store_subset_seen (handleIncomingEvent newRelayManager cEvent "wss://a" 1)
      (Steps.tail (Steps.refl _) (Step.ingest newRelayManager cEvent "wss://a" 1))).1
    "ev-1" (by rfl)

/-- C8: timestamp persistence round-trip. Saving the timestamps of two
connections A and B and loading the persisted snapshot into a fresh
manager yields a saved-timestamps table mapping A and B to their saved
times (exact at the whole-second snapshot resolution), and the persisted
value is an object carrying the per-address table under "timestamps" and
the save time under "last_saved". -/
theorem timestamps_roundtrip (a b : String) (t₁ t₂ savedAt : Int) (hne : a ≠ b) :
    mget (loadTimestamps (some (saveTimestamps [(a, t₁), (b, t₂)] savedAt))) a =
        some t₁ ∧
      mget (loadTimestamps (some (saveTimestamps [(a, t₁), (b, t₂)] savedAt))) b =
        some t₂ ∧
      ∃ fields, saveTimestamps [(a, t₁), (b, t₂)] savedAt = JsonVal.obj fields ∧
        mget fields "last_saved" = some (JsonVal.num savedAt) := by
  have hna : ¬ (a = b) := hne
  have htbl : loadTimestamps (some (saveTimestamps [(a, t₁), (b, t₂)] savedAt)) =
      [(a, t₁), (b, t₂)] := by
    simp [loadTimestamps, saveTimestamps, mget, decodeEntries, decodeTime]
  refine ⟨?_, ?_, ?_⟩
  · simp [htbl, mget]
  · simp [htbl, mget, hna]
  · refine ⟨_, rfl, ?_⟩
    simp [mget]

theorem timestamps_roundtrip_witness :
    mget (loadTimestamps (some (saveTimestamps [("wss://a", 11), ("wss://b", 22)] 33)))
        "wss://a" = some 11 ∧
      mget (loadTimestamps
          (some (saveTimestamps [("wss://a", 11), ("wss://b", 22)] 33))) "wss://b" =
        some 22 ∧
      ∃ fields, saveTimestamps [("wss://a", 11), ("wss://b", 22)] 33 =
          JsonVal.obj fields ∧
        mget fields "last_saved" = some (JsonVal.num 33) :=
  timestamps_roundtrip "wss://a" "wss://b" 11 22 33 (by decide)

/-- C9 counterexample: stored metadata is not immutable. Ingesting the
concrete event from a peer and then broadcasting an event with the same
identifier overwrites the metadata record of that identifier (source
relay becomes "local", receivedAt moves, isLocal flips to true), so the
claim that no subsequent Broadcast of the same identifier modifies the
stored metadata is false. -/
theorem metadata_not_immutable :
    mget (broadcastEvent (handleIncomingEvent newRelayManager cEvent "wss://a" 10)
        cEvent 20).eventMetadata cEvent.id ≠
      mget (handleIncomingEvent newRelayManager cEvent "wss://a" 10).eventMetadata
        cEvent.id := by
  decide

/-- C9 amended: stored event bodies are immutable and further ingests are
no-ops. Once a reachable state stores an EventRecord for an identifier, a
further ingest of the same identifier is the identity on the manager
state, and a Broadcast of an event with that identifier leaves the stored
event body unchanged while overwriting the metadata of the identifier
with source relay "local", a fresh receivedAt, and isLocal=true. -/
theorem store_immutable_amended (rm : RMState) (e₂ : NostrEvent) (src₂ : String)
    (t₂ now : Int) (stored : NostrEvent)
    (hr : Reachable rm)
    (hstored : mget rm.eventStore e₂.id = some stored) :
    handleIncomingEvent rm e₂ src₂ t₂ = rm ∧
      mget (broadcastEvent rm e₂ now).eventStore e₂.id = some stored ∧
      mget (broadcastEvent rm e₂ now).eventMetadata e₂.id =
        some ⟨"local", now, true⟩ := by
  have hwf := reachable_wellFormed hr
  have hseen : seenGet rm.seenEvents e₂.id = true :=
    hwf.1 e₂.id (by simp [hstored])
  refine ⟨by simp [handleIncomingEvent, hseen], ?_, ?_⟩
  · simpa [broadcastEvent] using hstored
  · simp [broadcastEvent, mget_mset_self]

theorem store_immutable_amended_witness :
    handleIncomingEvent (handleIncomingEvent newRelayManager cEvent "wss://a" 10)
        cEvent "wss://b" 15 =
      handleIncomingEvent newRelayManager cEvent "wss://a" 10 ∧
      mget (broadcastEvent (handleIncomingEvent newRelayManager cEvent "wss://a" 10)
          cEvent 20).eventStore cEvent.id = some cEvent ∧
      mget (broadcastEvent (handleIncomingEvent newRelayManager cEvent "wss://a" 10)
          cEvent 20).eventMetadata cEvent.id = some ⟨"local", 20, true⟩ :=
  store_immutable_amended (handleIncomingEvent newRelayManager cEvent "wss://a" 10)
    cEvent "wss://b" 15 20 cEvent
    (Steps.tail (Steps.refl _) (Step.ingest newRelayManager cEvent "wss://a" 10))
    (by rfl)

/-- C10: Broadcast records only metadata, never the event body. For an
event whose identifier is not yet in the deduplication set of a reachable
state, Broadcast marks the identifier seen and records metadata with
source "local" and isLocal=true, but inserts nothing into the event
store, so the GetAllEvents snapshot contains no event with that
identifier. -/
theorem broadcast_not_in_store (rm : RMState) (e : NostrEvent) (now : Int)
    (hr : Reachable rm)
    (hunseen : seenGet rm.seenEvents e.id = false) :
    seenGet (broadcastEvent rm e now).seenEvents e.id = true ∧
      mget (broadcastEvent rm e now).eventMetadata e.id =
        some ⟨"local", now, true⟩ ∧
      mget (broadcastEvent rm e now).eventStore e.id = none ∧
      ∀ ev ∈ getAllEvents (broadcastEvent rm e now), ev.id ≠ e.id := by
  obtain ⟨hseen, hkey, hnds, -⟩ := reachable_wellFormed hr
  have hnone : mget rm.eventStore e.id = none := by
    cases hs : mget rm.eventStore e.id with
    | none => rfl
    | some ev =>
      have ht := hseen e.id (by simp [hs])
      rw [ht] at hunseen
      cases hunseen
  refine ⟨by simp [broadcastEvent, seenGet_mset_self],
    by simp [broadcastEvent, mget_mset_self],
    by simpa [broadcastEvent] using hnone, ?_⟩
  intro ev hev hcontra
  have hev₂ : ev ∈ rm.eventStore.map Prod.snd := by
    simpa [getAllEvents, broadcastEvent] using hev
  obtain ⟨p, hmem, hsnd⟩ := List.mem_map.mp hev₂
  have hmget : mget rm.eventStore p.1 = some p.2 :=
    mget_eq_of_mem_of_nodup rm.eventStore p.1 p.2 hnds hmem
  have hkid : p.2.id = p.1 := hkey p.1 p.2 hmget
  rw [hsnd] at hkid hmget
  rw [hkid.symm.trans hcontra] at hmget
  rw [hnone] at hmget
  cases hmget

theorem broadcast_not_in_store_witness :
    mget (broadcastEvent newRelayManager cEvent 5).eventStore cEvent.id = none :=
  (broadcast_not_in_store newRelayManager cEvent 5 (Steps.refl _) (by rfl)).2.2.1
